import Mathlib

/-!
# Verification of the `revent` synchronous event system

Shallow embedding of the repository's two source files:

* `src/topic.rs` — the `Topic` channel type (dispatch, conditional removal,
  registration).
* `src/lib.rs` — the `hub!`/`node!` macros whose generated `subscribe`
  function drives the construction protocol
  (`prepare_construction` → node derivation (`activate_channel` per emit
  channel) → `T::build` → `selfscribe` (`subscribe_channel` + push per listen
  channel) → `finish_construction`), and the test suite pinning the cycle
  diagnostics (`hub_recursion`, `hub_dual_recursion`).

The `Manager` itself lives in `mng.rs`, which is not part of the sources;
its operations are modelled from the spec (§4.1), constrained to the API and
call order visible in `lib.rs`/`topic.rs` and to the diagnostic strings the
tests in `lib.rs` demand.  Rust panics raised by the manager are modelled as
returned errors; the state at the moment of the panic is kept observable.
-/

namespace Revent

/-- A committed permission edge of the Manager's graph: some subscriber
(`owner`) listening on channel `tail` may dispatch into channel `head`. -/
structure Edge where
  tail : String
  head : String
  owner : String
deriving DecidableEq

/-- One dispatch step: an edge from `a` to `b` exists in the edge list. -/
def step (es : List Edge) (a b : String) : Prop :=
  ∃ e ∈ es, e.tail = a ∧ e.head = b

/-- A walk from `a` to `b` through the edge list `es`; `l` records the nodes
visited after `a` (so `l.length` is the number of steps, and the last element
of `a :: l` is `b`). -/
inductive Walk (es : List Edge) : String → String → List String → Prop
  | refl (a : String) : Walk es a a []
  | cons {a b c : String} {l : List String} :
      step es a b → Walk es b c l → Walk es a c (b :: l)

/-- Reachability in the committed permission graph (reflexive-transitive). -/
def Reach (es : List Edge) (a b : String) : Prop :=
  ∃ l, Walk es a b l

/-- The committed graph is acyclic: no edge closes a loop back to its own
tail. -/
def Acyclic (es : List Edge) : Prop :=
  ∀ e ∈ es, ¬ Reach es e.head e.tail

/-- The edges leaving channel `a`. -/
def succs (es : List Edge) (a : String) : List Edge :=
  es.filter (fun e => e.tail == a)

/-- Modelled from the spec: the Manager's reachability search over the
committed graph ("a reachability search, e.g., breadth-first, over existing
edges", §4.1; `mng.rs` is not among the sources).  Fuel-bounded search that
returns, when `b` is reachable from `a`, the `(owner, channel)` hops of a
path from `a` up to but excluding `b`. -/
def findPath (es : List Edge) : Nat → String → String → Option (List (String × String))
  | 0, a, b => if a == b then some [] else none
  | n + 1, a, b =>
    if a == b then some []
    else
      (succs es a).findSome? fun e =>
        (findPath es n e.head b).map fun p => (e.owner, a) :: p

/-- The error kinds of §7.  Rust panics raised by the Manager are modelled
as these errors. -/
inductive RError
  | CycleDetected (path : String)
  | InactiveScope
  | UnknownSubscription
  | NotGranted
deriving DecidableEq

/-- One entry of the Manager's construction-scope stack (§4.1): the
subscriber's display name, the emit channels granted to its Node so far
(`activate_channel`), and the listen channels registered so far
(`subscribe_channel`). -/
structure Construction where
  name : String
  activated : List String
  subscribed : List String
deriving DecidableEq

/-- Modelled from the spec: the Manager (`mng.rs` is declared in
`src/lib.rs` but is not among the sources).  It owns the permission graph —
channel names as nodes, "may dispatch into" permissions as edges — and the
construction-scope stack (§4.1, §3). -/
structure Manager where
  edges : List Edge
  scopes : List Construction
deriving DecidableEq

/-- `Manager::default()` as used by the generated `HubName::new()`
(src/lib.rs): empty graph, empty scope stack. -/
def Manager.default : Manager := ⟨[], []⟩

/-- Modelled from the spec: `begin_subscription`
(`prepare_construction(T::name())` at the call site in src/lib.rs) pushes a
new scope recording the name and empty proposed sets (§4.1). -/
def Manager.prepare_construction (m : Manager) (name : String) : Manager :=
  { m with scopes := ⟨name, [], []⟩ :: m.scopes }

/-- Modelled from the spec: `activate_channel` (called from
`Topic::clone_activate` in src/topic.rs while the Node is derived) records
one emit-channel grant in the current scope.  Outside any construction it
has nothing to record. -/
def Manager.activate_channel (m : Manager) (c : String) : Manager :=
  match m.scopes with
  | [] => m
  | s :: rest =>
    { m with scopes := { s with activated := s.activated ++ [c] } :: rest }

/-- One diagnostic hop `[SubscriberName]channelName` (§6). -/
def renderHop (owner chan : String) : String :=
  "[" ++ owner ++ "]" ++ chan

/-- Modelled from the spec and the tests in src/lib.rs: the cycle
diagnostic.  `hops` are the committed-path hops from the newly granted emit
channel `E` back to the listen channel `L`; then comes the new subscriber's
own hop `[name]L`, and the text is terminated by repeating `E`, the channel
that closes the loop.  The tests `hub_recursion` (`[Handler]a -> a`) and
`hub_dual_recursion` (`[AToBHandler]a -> [BToAHandler]b -> a`) pin this
format. -/
def renderCycle (hops : List (String × String)) (name L E : String) : String :=
  String.intercalate " -> "
    ((hops.map fun h => renderHop h.1 h.2) ++ [renderHop name L, E])

/-- Modelled from the spec: `subscribe_channel` (called from
`Topic::subscribe` in src/topic.rs while the new cell is registered).  For
the listen channel `c` it checks, for each emit channel `E` granted to the
current scope, whether a path already exists from `E` back to `c` in the
committed graph; if so the subscription fails with the cycle diagnostic
(§4.1).  Otherwise `c` is recorded in the scope's listen set. -/
def Manager.subscribe_channel (m : Manager) (c : String) :
    Except RError Manager :=
  match m.scopes with
  | [] => .error .InactiveScope
  | s :: rest =>
    match s.activated.findSome?
        (fun E => (findPath m.edges m.edges.length E c).map
          fun hops => renderCycle hops s.name c E) with
    | some msg => .error (.CycleDetected msg)
    | none =>
      .ok { m with scopes := { s with subscribed := s.subscribed ++ [c] } :: rest }

/-- The edges one subscription proposes: listen-set × emit-set, owned by the
subscriber (§4.1 `propose_edges`). -/
def proposedEdges (name : String) (listens emits : List String) : List Edge :=
  listens.flatMap fun L => emits.map fun E => Edge.mk L E name

/-- Modelled from the spec: `end_subscription`
(`finish_construction` at the call site in src/lib.rs) pops the scope and
commits its proposed edges into the graph — the only point at which the
graph is mutated (§4.1). -/
def Manager.finish_construction (m : Manager) : Manager :=
  match m.scopes with
  | [] => m
  | s :: rest =>
    { edges := m.edges ++ proposedEdges s.name s.subscribed s.activated,
      scopes := rest }

/-- Modelled from the spec: `emitting`, called at the top of `Topic::emit`
and `Topic::remove` (src/topic.rs), performs the active-manager bookkeeping
of §4.1 `assert_active`.  The process-global "currently active manager" is
outside this single-hub model, so the bookkeeping mutates nothing here; no
claim depends on it. -/
def Manager.emitting (m : Manager) (_name : String) : Manager := m

/-- An event channel (src/topic.rs `Topic<T>` / `InternalTopic<T>`): the
owning Manager, the channel's stable name, and the ordered subscriber
sequence. -/
structure Topic (T : Type) where
  manager : Manager
  name : String
  subscribers : List T

/-- The dispatch loop of `Topic::emit` (src/topic.rs): the Rust
`FnMut(&mut T)` closure is modelled as a function threading its captured
state `σ` left-to-right and returning the mutated subscriber. -/
def emitList {σ T : Type} (f : σ → T → σ × T) : σ → List T → σ × List T
  | s, [] => (s, [])
  | s, x :: xs =>
    let r := f s x
    let rest := emitList f r.1 xs
    (rest.1, r.2 :: rest.2)

/-- `Topic::emit` (src/topic.rs): notifies the Manager (`emitting`), then
applies `caller` once to every subscriber of this topic, in the sequence's
current order. -/
def Topic.emit {σ T : Type} (t : Topic T) (caller : σ → T → σ × T) (s : σ) :
    σ × Topic T :=
  let m := t.manager.emitting t.name
  let r := emitList caller s t.subscribers
  (r.1, { t with manager := m, subscribers := r.2 })

/-- The visit log of a dispatch: run `Topic.emit` with the caller
instrumented to record every subscriber it is applied to, in order. -/
def Topic.emitTrace {σ T : Type} (t : Topic T) (f : σ → T → σ × T) (s : σ) :
    List T :=
  ((t.emit (fun p x => let r := f p.2 x; ((p.1 ++ [x], r.1), r.2))
    (([] : List T), s)).1).1

/-- The removal loop of `Topic::remove` (src/topic.rs `drain_filter`): the
closure is applied to each subscriber in turn; a `true` verdict removes the
subscriber, a `false` verdict keeps it (with the closure's mutation). -/
def removeList {σ T : Type} (f : σ → T → σ × T × Bool) : σ → List T → σ × List T
  | s, [] => (s, [])
  | s, x :: xs =>
    let r := f s x
    let rest := removeList f r.1 xs
    (rest.1, if r.2.2 then rest.2 else r.2.1 :: rest.2)

/-- `Topic::remove` (src/topic.rs): notifies the Manager (`emitting`), then
drains every subscriber for which `caller` returns `true`. -/
def Topic.remove {σ T : Type} (t : Topic T) (caller : σ → T → σ × T × Bool)
    (s : σ) : σ × Topic T :=
  let m := t.manager.emitting t.name
  let r := removeList caller s t.subscribers
  (r.1, { t with manager := m, subscribers := r.2 })

/-- `Topic::clone_activate` (src/topic.rs): record the emit grant with the
Manager and hand out a clone sharing the same underlying sequence. -/
def Topic.clone_activate {T : Type} (t : Topic T) : Topic T :=
  { t with manager := t.manager.activate_channel t.name }

/-- `Topic::subscribe` (src/topic.rs): register the channel with the Manager
(`subscribe_channel`, where the cycle check fires), then push the shared
cell onto the sequence. -/
def Topic.subscribe {T : Type} (t : Topic T) (shared : T) :
    Except RError (Topic T) :=
  match t.manager.subscribe_channel t.name with
  | .error e => .error e
  | .ok m' => .ok { t with manager := m', subscribers := t.subscribers ++ [shared] }

/-- Modelled from the spec: `unregister(handle)` (§4.2) — remove the exact
entry matching a subscription handle by identity; fails with
UnknownSubscription if the handle is not currently present.  Not present in
the sources (`signal.rs` is missing); subscriber identity is the shared
cell's id. -/
def Topic.unregister (t : Topic Nat) (h : Nat) : Except RError (Topic Nat) :=
  if h ∈ t.subscribers then
    .ok { t with subscribers := t.subscribers.erase h }
  else
    .error .UnknownSubscription

/-- One step of the generated `subscribe` (src/lib.rs `node_internal!`),
recorded in execution order. -/
inductive Event
  | prepared (name : String)
  | activated (chan : String)
  | factoryInvoked (cell : Nat)
  | registered (chan : String) (cell : Nat)
  | committed
deriving DecidableEq

/-- A hub instance as built by the `hub!` macro (src/lib.rs): the shared
Manager and the named channels.  Channels hold the ids of the shared cells
registered into them, in sequence order; `store` is the heap of handler
instances behind those cells (the id is the index), `built` logs every
factory (`T::build`) invocation by the cell id it produced, and `log`
records the protocol events in order. -/
structure Hub where
  manager : Manager
  channels : List (String × List Nat)
  store : List Nat
  built : List Nat
  log : List Event
deriving DecidableEq

/-- `HubName::new()` (src/lib.rs `hub!`): a fresh Manager and one empty
channel per declared name. -/
def Hub.new (names : List String) : Hub :=
  { manager := Manager.default,
    channels := names.map fun n => (n, []),
    store := [], built := [], log := [] }

/-- The subscriber sequence of channel `c`. -/
def chanGet (chs : List (String × List Nat)) (c : String) : List Nat :=
  match chs.find? (fun p => p.1 == c) with
  | some p => p.2
  | none => []

/-- Append cell `id` to channel `c`'s sequence. -/
def pushChannel (chs : List (String × List Nat)) (c : String) (id : Nat) :
    List (String × List Nat) :=
  chs.map fun p => if p.1 == c then (p.1, p.2 ++ [id]) else p

/-- Append cell `id` to every channel of `ls`, in order. -/
def pushAll (chs : List (String × List Nat)) (ls : List String) (id : Nat) :
    List (String × List Nat) :=
  ls.foldl (fun cs c => pushChannel cs c id) chs

def Hub.getChannel (h : Hub) (c : String) : List Nat :=
  chanGet h.channels c

/-- One subscription request: the handler's display name, its declared
listen-set and emit-set (in declaration order), and the `build` input. -/
structure Request where
  name : String
  listens : List String
  emits : List String
  input : Nat
deriving DecidableEq

/-- One registration of the new cell into a listen channel, as performed by
the generated `selfscribe` (src/lib.rs) via `Topic::subscribe`
(src/topic.rs): `subscribe_channel` first — where the cycle check fires —
then the push of the shared cell. -/
def Hub.insertCell (h : Hub) (c : String) (id : Nat) : Except RError Hub :=
  match h.manager.subscribe_channel c with
  | .error e => .error e
  | .ok m' =>
    .ok { h with manager := m',
                 channels := pushChannel h.channels c id,
                 log := h.log ++ [Event.registered c id] }

/-- `T::selfscribe` (src/lib.rs `node_internal!`): insert the cell into
every listen channel in declared order; the first Manager panic aborts the
remaining insertions (the state at that point is returned with the error). -/
def Hub.selfscribe (h : Hub) (id : Nat) : List String → Hub × Option RError
  | [] => (h, none)
  | c :: rest =>
    match h.insertCell c id with
    | .error e => (h, some e)
    | .ok h' => h'.selfscribe id rest

/-- The first steps of the generated `subscribe` (src/lib.rs):
`prepare_construction(T::name())`, then the Node derivation
(`From::from(&*self)`, which calls `internal_clone`/`clone_activate` and so
`activate_channel` once per emit channel, in declared order). -/
def Hub.subscribePrepared (h : Hub) (r : Request) : Hub :=
  { h with
      manager := r.emits.foldl Manager.activate_channel
        (h.manager.prepare_construction r.name),
      log := h.log ++ [Event.prepared r.name] ++ r.emits.map Event.activated }

/-- The next step of the generated `subscribe` (src/lib.rs):
`T::build(sub, input)` — the handler factory — runs and its instance is
wrapped in a fresh shared cell (id `h.store.length`). -/
def Hub.subscribeBuilt (h : Hub) (r : Request) : Hub :=
  let h1 := h.subscribePrepared r
  { h1 with store := h1.store ++ [r.input],
            built := h1.built ++ [h.store.length],
            log := h1.log ++ [Event.factoryInvoked h.store.length] }

/-- The generated `subscribe` (src/lib.rs lines 386–402), in the source's
exact order: `prepare_construction(T::name())`; the Node derivation with one
`activate_channel` per emit channel; `T::build` — the factory; then
`T::selfscribe`, registering the new cell into every listen channel (where
the per-channel cycle check fires); and finally `finish_construction`, which
commits the proposed edges.  The function returns no subscription handle.
A Manager panic is modelled as an error returned alongside the hub state at
the moment of the panic. -/
def Hub.subscribe (h : Hub) (r : Request) : Hub × Option RError :=
  match (h.subscribeBuilt r).selfscribe h.store.length r.listens with
  | (h3, some e) => (h3, some e)
  | (h3, none) =>
    ({ h3 with manager := h3.manager.finish_construction,
               log := h3.log ++ [Event.committed] }, none)

/-- Apply a sequence of subscription requests to a hub.  A rejected request
leaves the hub in the state it had at the moment of the rejection. -/
def Hub.run (h : Hub) : List Request → Hub
  | [] => h
  | r :: rest => ((h.subscribe r).1).run rest

/-- Hub-level dispatch on one channel: apply `f` once to the instance behind
each registered cell, in sequence order, through the shared store (the
`Signal::emit` of src/lib.rs, whose loop is `Topic::emit` of
src/topic.rs). -/
def Hub.emitOn (h : Hub) (c : String) (f : Nat → Nat) : Hub :=
  { h with store :=
      (h.getChannel c).foldl (fun st id => st.set id (f (st.getD id 0))) h.store }

/-- The instance values a dispatch on channel `c` currently observes, in
visit order. -/
def Hub.emitValues (h : Hub) (c : String) : List Nat :=
  (h.getChannel c).map fun id => h.store.getD id 0

/-- Does a channel named `c` exist? -/
def hasChannel (chs : List (String × List Nat)) (c : String) : Bool :=
  chs.any (fun p => p.1 == c)

/-- C1 exactly as claimed: for every request sequence the committed graph is
acyclic; a cycle-closing subscription is rejected; and after a rejection
both the committed edge set and every channel's subscriber membership are
exactly what they were before the request. -/
def SubscriptionAtomicityClaim : Prop :=
  ∀ (names : List String) (reqs : List Request) (r : Request),
    Acyclic (((Hub.new names).run reqs).manager.edges) ∧
    ((∃ L ∈ r.listens, ∃ E ∈ r.emits,
        Reach (((Hub.new names).run reqs).manager.edges) E L) →
      ((((Hub.new names).run reqs).subscribe r).2).isSome) ∧
    (((((Hub.new names).run reqs).subscribe r).2).isSome →
      ((((Hub.new names).run reqs).subscribe r).1).manager.edges =
        ((Hub.new names).run reqs).manager.edges ∧
      ∀ c, ((((Hub.new names).run reqs).subscribe r).1).getChannel c =
        ((Hub.new names).run reqs).getChannel c)

/-- C2 exactly as claimed: a subscription rejected with a cycle error
creates no handler instance, mutates no channel's subscriber sequence, and
commits no graph edge. -/
def RejectionNoSideEffectClaim : Prop :=
  ∀ (h : Hub) (r : Request) (h' : Hub) (msg : String),
    h.subscribe r = (h', some (.CycleDetected msg)) →
    h'.built = h.built ∧ h'.channels = h.channels ∧
    h'.manager.edges = h.manager.edges

/-- The C3 scenario with `X` subscribed second: the prior handler `Y`
listens on `b` with emit grant `a`; then `X`, listening on `a` with emit
grant `b`, is subscribed. -/
def hubXafterY : Hub × Option RError :=
  (((Hub.new ["a", "b"]).subscribe ⟨"Y", ["b"], ["a"], 0⟩).1).subscribe
    ⟨"X", ["a"], ["b"], 0⟩

/-- The mirror scenario with `X` subscribed first and `Y` second. -/
def hubYafterX : Hub × Option RError :=
  (((Hub.new ["a", "b"]).subscribe ⟨"X", ["a"], ["b"], 0⟩).1).subscribe
    ⟨"Y", ["b"], ["a"], 0⟩

/-- Does event `x` occur strictly before event `y` in the log `l`?  (By the
first occurrence of each.) -/
def precedes (l : List Event) (x y : Event) : Bool :=
  match l.findIdx? (fun z => z == x), l.findIdx? (fun z => z == y) with
  | some i, some j => decide (i < j)
  | _, _ => false

/-- C6 exactly as claimed: on every successful subscription the proposed
edges are committed before the handler factory is invoked. -/
def CommitBeforeFactoryClaim : Prop :=
  ∀ (h : Hub) (r : Request) (h' : Hub), h.subscribe r = (h', none) →
    precedes (h'.log.drop h.log.length) Event.committed
      (Event.factoryInvoked h.store.length) = true

theorem Reach.rfl {es : List Edge} (a : String) : Reach es a a :=
  ⟨[], Walk.refl a⟩

theorem walk_append {es : List Edge} {a m b : String} {p q : List String}
    (h1 : Walk es a m p) (h2 : Walk es m b q) : Walk es a b (p ++ q) := by
  induction h1 with
  | refl => simpa using h2
  | cons hs _ ih => exact Walk.cons hs (ih h2)

theorem Reach.trans {es : List Edge} {a m b : String}
    (h1 : Reach es a m) (h2 : Reach es m b) : Reach es a b := by
  obtain ⟨p, hp⟩ := h1
  obtain ⟨q, hq⟩ := h2
  exact ⟨p ++ q, walk_append hp hq⟩

theorem Reach.head {es : List Edge} {a b c : String}
    (hs : step es a b) (h : Reach es b c) : Reach es a c := by
  obtain ⟨l, hl⟩ := h
  exact ⟨b :: l, Walk.cons hs hl⟩

theorem Reach.single {es : List Edge} {a b : String} (hs : step es a b) :
    Reach es a b :=
  Reach.head hs (Reach.rfl b)

/-- Every node visited after the start of a walk is the head of some edge. -/
theorem walk_mem_heads {es : List Edge} {a b : String} {l : List String}
    (h : Walk es a b l) : ∀ x ∈ l, x ∈ es.map Edge.head := by
  induction h with
  | refl => intro x hx; cases hx
  | cons hs _ ih =>
    intro x hx
    rcases List.mem_cons.mp hx with hx | hx
    · obtain ⟨e, he, ht, hh⟩ := hs
      subst hx
      exact hh ▸ List.mem_map_of_mem Edge.head he
    · exact ih x hx

/-- Split a walk at an occurrence of `x` in its node list. -/
theorem walk_split {es : List Edge} {a b x : String} {l1 l2 : List String}
    (h : Walk es a b (l1 ++ x :: l2)) :
    Walk es a x (l1 ++ [x]) ∧ Walk es x b l2 := by
  induction l1 generalizing a with
  | nil =>
    cases h with
    | cons hs hw => exact ⟨Walk.cons hs (Walk.refl x), hw⟩
  | cons y t ih =>
    cases h with
    | cons hs hw =>
      obtain ⟨h1, h2⟩ := ih hw
      exact ⟨Walk.cons hs h1, h2⟩

/-- A list that is not duplicate-free contains a repeated element with an
explicit split. -/
theorem exists_dup_split {l : List String} (h : ¬ l.Nodup) :
    ∃ x l1 l2 l3, l = l1 ++ x :: (l2 ++ x :: l3) := by
  induction l with
  | nil => exact absurd List.nodup_nil h
  | cons y t ih =>
    by_cases hy : y ∈ t
    · obtain ⟨l2, l3, ht⟩ := List.append_of_mem hy
      exact ⟨y, [], l2, l3, by simp [ht]⟩
    · by_cases hnd : t.Nodup
      · exact absurd (List.nodup_cons.mpr ⟨hy, hnd⟩) h
      · obtain ⟨x, l1, l2, l3, ht⟩ := ih hnd
        exact ⟨x, y :: l1, l2, l3, by simp [ht]⟩

theorem walk_shorten_aux {es : List Edge} :
    ∀ n {a b : String} (l : List String), l.length ≤ n → Walk es a b l →
      ∃ l', Walk es a b l' ∧ l'.Nodup := by
  intro n
  induction n using Nat.strong_induction_on with
  | _ n ih =>
    intro a b l hlen hw
    by_cases hnd : l.Nodup
    · exact ⟨l, hw, hnd⟩
    · obtain ⟨x, l1, l2, l3, hl⟩ := exists_dup_split hnd
      subst hl
      obtain ⟨h1, h2⟩ := walk_split hw
      obtain ⟨_, h4⟩ := walk_split h2
      have hjoin : Walk es a b ((l1 ++ [x]) ++ l3) := walk_append h1 h4
      have hlt : ((l1 ++ [x]) ++ l3).length < n := by
        simp at hlen ⊢; omega
      exact ih _ hlt _ le_rfl hjoin

/-- Any walk can be shortened to a duplicate-free walk between the same
endpoints. -/
theorem walk_shorten {es : List Edge} {a b : String} {l : List String}
    (hw : Walk es a b l) : ∃ l', Walk es a b l' ∧ l'.Nodup :=
  walk_shorten_aux l.length l le_rfl hw

theorem findSome?_isSome_of_mem {α β : Type} {l : List α} {f : α → Option β}
    {x : α} (hx : x ∈ l) (hf : (f x).isSome) : (l.findSome? f).isSome := by
  simp only [List.findSome?_isSome_iff]
  exact ⟨x, hx, hf⟩

/-- The fuel-bounded search finds a path whenever a walk of length within the
fuel exists. -/
theorem findPath_complete {es : List Edge} :
    ∀ {n : Nat} {a b : String} {l : List String}, Walk es a b l →
      l.length ≤ n → (findPath es n a b).isSome := by
  intro n
  induction n with
  | zero =>
    intro a b l hw hlen
    have hl : l = [] := List.eq_nil_of_length_eq_zero (Nat.le_zero.mp hlen)
    subst hl
    cases hw with
    | refl => simp [findPath]
  | succ n ih =>
    intro a b l hw hlen
    by_cases hab : a = b
    · simp [findPath, hab]
    · cases hw with
      | refl => exact absurd rfl hab
      | cons hs hw' =>
        obtain ⟨e, he, ht, hh⟩ := hs
        have hmem : e ∈ succs es a := by
          simp [succs, List.mem_filter, he, ht]
        have hrec : (findPath es n e.head b).isSome := by
          rw [hh]
          exact ih hw' (by simpa using hlen)
        have hsome :
            ((findPath es n e.head b).map fun p => (e.owner, a) :: p).isSome := by
          cases hfp : findPath es n e.head b with
          | none => rw [hfp] at hrec; simp at hrec
          | some p => simp
        have := findSome?_isSome_of_mem
          (f := fun e => (findPath es n e.head b).map fun p => (e.owner, a) :: p)
          hmem hsome
        simpa [findPath, hab] using this

/-- A duplicate-free walk is no longer than the edge list. -/
theorem nodup_walk_length_le {es : List Edge} {a b : String} {l : List String}
    (hw : Walk es a b l) (hnd : l.Nodup) : l.length ≤ es.length := by
  have hsub : l.toFinset ⊆ (es.map Edge.head).toFinset := by
    intro x hx
    exact List.mem_toFinset.mpr (walk_mem_heads hw x (List.mem_toFinset.mp hx))
  calc l.length = l.toFinset.card := (List.toFinset_card_of_nodup hnd).symm
    _ ≤ (es.map Edge.head).toFinset.card := Finset.card_le_card hsub
    _ ≤ (es.map Edge.head).length := List.toFinset_card_le _
    _ = es.length := List.length_map _ _

/-- Completeness of the Manager's cycle search: when the search with fuel
`es.length` finds nothing, no path exists at all. -/
theorem not_reach_of_findPath_none {es : List Edge} {a b : String}
    (h : findPath es es.length a b = none) : ¬ Reach es a b := by
  rintro ⟨l, hw⟩
  obtain ⟨l', hw', hnd⟩ := walk_shorten hw
  have hsome := findPath_complete hw' (nodup_walk_length_le hw' hnd)
  rw [h] at hsome
  simp at hsome

theorem findPath_refl (es : List Edge) (n : Nat) (a : String) :
    findPath es n a a = some [] := by
  cases n <;> simp [findPath]

/-- Decomposition of walks in the graph extended by one subscription's
proposed edges: such a walk either stays in the committed graph, or it used
a proposed edge, in which case the start reaches a listen channel and some
emit channel reaches the end, both within the committed graph alone.  The
hypothesis is the per-channel check that `subscribe_channel` enforces. -/
theorem walk_extend_cases {es N : List Edge} {listens acts : List String}
    (hT : ∀ e ∈ N, e.tail ∈ listens ∧ e.head ∈ acts)
    (H : ∀ L ∈ listens, ∀ E ∈ acts, ¬ Reach es E L) :
    ∀ {a b : String} {l : List String}, Walk (es ++ N) a b l →
      Reach es a b ∨ ∃ L ∈ listens, ∃ E ∈ acts, Reach es a L ∧ Reach es E b := by
  intro a b l hw
  induction hw with
  | refl a => exact Or.inl (Reach.rfl a)
  | @cons a c b l hs _ ih =>
    obtain ⟨e, he, ht, hh⟩ := hs
    rcases List.mem_append.mp he with hold | hnew
    · have hstep : step es a c := ⟨e, hold, ht, hh⟩
      rcases ih with hr | ⟨L, hL, E, hE, h1, h2⟩
      · exact Or.inl (Reach.head hstep hr)
      · exact Or.inr ⟨L, hL, E, hE, Reach.head hstep h1, h2⟩
    · obtain ⟨htl, hhd⟩ := hT e hnew
      rw [ht] at htl
      rw [hh] at hhd
      rcases ih with hr | ⟨L, hL, E, hE, h1, h2⟩
      · exact Or.inr ⟨a, htl, c, hhd, Reach.rfl a, hr⟩
      · exact absurd h1 (H L hL c hhd)

/-- If every proposed edge's per-channel check passed — no emit channel
reaches any listen channel through the committed graph — then committing the
proposed edges preserves acyclicity. -/
theorem acyclic_append {es N : List Edge} {listens acts : List String}
    (hac : Acyclic es)
    (hT : ∀ e ∈ N, e.tail ∈ listens ∧ e.head ∈ acts)
    (H : ∀ L ∈ listens, ∀ E ∈ acts, ¬ Reach es E L) :
    Acyclic (es ++ N) := by
  intro e he hre
  obtain ⟨l, hw⟩ := hre
  rcases walk_extend_cases hT H hw with hr | ⟨L, hL, E, hE, h1, h2⟩
  · rcases List.mem_append.mp he with hold | hnew
    · exact hac e hold hr
    · obtain ⟨htl, hhd⟩ := hT e hnew
      exact H _ htl _ hhd hr
  · rcases List.mem_append.mp he with hold | hnew
    · have hEL : Reach es E L :=
        Reach.trans (Reach.trans h2 (Reach.single ⟨e, hold, rfl, rfl⟩)) h1
      exact H L hL E hE hEL
    · obtain ⟨_, hhd⟩ := hT e hnew
      exact H L hL e.head hhd h1

theorem proposedEdges_shape {name : String} {listens emits : List String} :
    ∀ e ∈ proposedEdges name listens emits, e.tail ∈ listens ∧ e.head ∈ emits := by
  intro e he
  simp only [proposedEdges, List.mem_flatMap, List.mem_map] at he
  obtain ⟨L, hL, E, hE, rfl⟩ := he
  exact ⟨hL, hE⟩

theorem findSome?_none_of_eq_none {α β : Type} {l : List α} {f : α → Option β}
    {x : α} (hn : l.findSome? f = none) (hx : x ∈ l) : f x = none := by
  by_contra hne
  have hs : (l.findSome? f).isSome :=
    findSome?_isSome_of_mem hx (Option.isSome_iff_ne_none.mpr hne)
  rw [hn] at hs
  simp at hs

theorem foldl_activate {cs : List String} :
    ∀ {m : Manager} {s : Construction} {rest : List Construction},
      m.scopes = s :: rest →
      (cs.foldl Manager.activate_channel m).edges = m.edges ∧
      (cs.foldl Manager.activate_channel m).scopes =
        { s with activated := s.activated ++ cs } :: rest := by
  induction cs with
  | nil =>
    intro m s rest hm
    refine ⟨rfl, ?_⟩
    simpa using hm
  | cons c cs ih =>
    intro m s rest hm
    have hact : (m.activate_channel c).edges = m.edges ∧
        (m.activate_channel c).scopes =
          { s with activated := s.activated ++ [c] } :: rest := by
      simp [Manager.activate_channel, hm]
    obtain ⟨he, hs⟩ := ih hact.2
    refine ⟨by rw [List.foldl_cons, he, hact.1], ?_⟩
    rw [List.foldl_cons, hs]
    simp

theorem subscribe_channel_ok {m m' : Manager} {c : String} {s : Construction}
    {rest : List Construction} (hm : m.scopes = s :: rest)
    (h : m.subscribe_channel c = .ok m') :
    m'.edges = m.edges ∧
    m'.scopes = { s with subscribed := s.subscribed ++ [c] } :: rest ∧
    ∀ E ∈ s.activated, findPath m.edges m.edges.length E c = none := by
  unfold Manager.subscribe_channel at h
  rw [hm] at h
  dsimp only at h
  rcases hf : s.activated.findSome?
      (fun E => (findPath m.edges m.edges.length E c).map
        fun hops => renderCycle hops s.name c E) with _ | msg
  · rw [hf] at h
    simp only [Except.ok.injEq] at h
    subst h
    refine ⟨rfl, rfl, ?_⟩
    intro E hE
    have := findSome?_none_of_eq_none hf hE
    simpa using this
  · rw [hf] at h
    cases h

theorem subscribe_channel_error {m : Manager} {c : String} {e : RError}
    {s : Construction} {rest : List Construction} (hm : m.scopes = s :: rest)
    (h : m.subscribe_channel c = .error e) : ∃ msg, e = .CycleDetected msg := by
  unfold Manager.subscribe_channel at h
  rw [hm] at h
  dsimp only at h
  rcases hf : s.activated.findSome?
      (fun E => (findPath m.edges m.edges.length E c).map
        fun hops => renderCycle hops s.name c E) with _ | msg
  · rw [hf] at h; cases h
  · rw [hf] at h
    simp only [Except.error.injEq] at h
    exact ⟨msg, h.symm⟩

theorem insertCell_ok {h h' : Hub} {c : String} {id : Nat} {s : Construction}
    {rest : List Construction} (hm : h.manager.scopes = s :: rest)
    (hins : h.insertCell c id = .ok h') :
    h'.manager.edges = h.manager.edges ∧
    h'.manager.scopes = { s with subscribed := s.subscribed ++ [c] } :: rest ∧
    h'.store = h.store ∧ h'.built = h.built ∧
    h'.channels = pushChannel h.channels c id ∧
    h'.log = h.log ++ [Event.registered c id] ∧
    ∀ E ∈ s.activated,
      findPath h.manager.edges h.manager.edges.length E c = none := by
  unfold Hub.insertCell at hins
  cases hms : h.manager.subscribe_channel c with
  | error e0 => rw [hms] at hins; cases hins
  | ok m' =>
    rw [hms] at hins
    simp only [Except.ok.injEq] at hins
    subst hins
    obtain ⟨he, hs, hfp⟩ := subscribe_channel_ok hm hms
    exact ⟨he, hs, rfl, rfl, rfl, rfl, hfp⟩

theorem insertCell_error {h : Hub} {c : String} {id : Nat} {e : RError}
    {s : Construction} {rest : List Construction}
    (hm : h.manager.scopes = s :: rest)
    (hins : h.insertCell c id = .error e) : ∃ msg, e = .CycleDetected msg := by
  unfold Hub.insertCell at hins
  cases hms : h.manager.subscribe_channel c with
  | error e0 =>
    rw [hms] at hins
    simp only [Except.error.injEq] at hins
    subst hins
    exact subscribe_channel_error hm hms
  | ok m' => rw [hms] at hins; cases hins

theorem selfscribe_ok {id : Nat} {ls : List String} :
    ∀ {h h' : Hub} {s : Construction} {rest : List Construction},
      h.manager.scopes = s :: rest → h.selfscribe id ls = (h', none) →
      h'.manager.edges = h.manager.edges ∧
      h'.manager.scopes = { s with subscribed := s.subscribed ++ ls } :: rest ∧
      h'.store = h.store ∧ h'.built = h.built ∧
      h'.channels = pushAll h.channels ls id ∧
      h'.log = h.log ++ ls.map (fun c => Event.registered c id) ∧
      ∀ c ∈ ls, ∀ E ∈ s.activated,
        findPath h.manager.edges h.manager.edges.length E c = none := by
  induction ls with
  | nil =>
    intro h h' s rest hm hrun
    unfold Hub.selfscribe at hrun
    simp only [Prod.mk.injEq] at hrun
    rw [← hrun.1]
    refine ⟨rfl, ?_, rfl, rfl, rfl, by simp, by simp⟩
    simpa using hm
  | cons c cs ih =>
    intro h h' s rest hm hrun
    unfold Hub.selfscribe at hrun
    cases hins : h.insertCell c id with
    | error e0 => rw [hins] at hrun; cases hrun
    | ok h1 =>
      rw [hins] at hrun
      obtain ⟨he1, hs1, hst1, hb1, hch1, hl1, hfp1⟩ := insertCell_ok hm hins
      obtain ⟨he2, hs2, hst2, hb2, hch2, hl2, hfp2⟩ := ih hs1 hrun
      refine ⟨he2.trans he1, ?_, hst2.trans hst1, hb2.trans hb1, ?_, ?_, ?_⟩
      · rw [hs2]; simp
      · rw [hch2, hch1]; rfl
      · rw [hl2, hl1]; simp
      · intro c' hc' E hE
        rcases List.mem_cons.mp hc' with hc' | hc'
        · subst hc'; exact hfp1 E hE
        · have := hfp2 c' hc' E hE
          rw [he1] at this
          exact this

theorem selfscribe_error {id : Nat} {ls : List String} :
    ∀ {h h' : Hub} {e : RError} {s : Construction} {rest : List Construction},
      h.manager.scopes = s :: rest → h.selfscribe id ls = (h', some e) →
      (∃ msg, e = .CycleDetected msg) ∧
      h'.manager.edges = h.manager.edges ∧
      h'.store = h.store ∧ h'.built = h.built ∧
      ∃ pre c post, ls = pre ++ c :: post ∧
        h'.channels = pushAll h.channels pre id ∧
        h'.log = h.log ++ pre.map (fun c' => Event.registered c' id) := by
  induction ls with
  | nil =>
    intro h h' e s rest hm hrun
    unfold Hub.selfscribe at hrun
    simp at hrun
  | cons c cs ih =>
    intro h h' e s rest hm hrun
    unfold Hub.selfscribe at hrun
    cases hins : h.insertCell c id with
    | error e0 =>
      rw [hins] at hrun
      simp only [Prod.mk.injEq] at hrun
      obtain ⟨rfl, he⟩ := hrun.imp Eq.symm Option.some.inj
      subst he
      refine ⟨insertCell_error hm hins, rfl, rfl, rfl, [], c, cs, rfl, rfl, by simp⟩
    | ok h1 =>
      rw [hins] at hrun
      obtain ⟨he1, hs1, hst1, hb1, hch1, hl1, _⟩ := insertCell_ok hm hins
      obtain ⟨hmsg, he2, hst2, hb2, pre, c', post, hsplit, hch2, hl2⟩ := ih hs1 hrun
      refine ⟨hmsg, he2.trans he1, hst2.trans hst1, hb2.trans hb1,
        c :: pre, c', post, by rw [hsplit]; simp, ?_, ?_⟩
      · rw [hch2, hch1]; rfl
      · rw [hl2, hl1]; simp

theorem subscribeBuilt_spec (h : Hub) (r : Request) :
    (h.subscribeBuilt r).manager.edges = h.manager.edges ∧
    (h.subscribeBuilt r).manager.scopes =
      Construction.mk r.name r.emits [] :: h.manager.scopes ∧
    (h.subscribeBuilt r).store = h.store ++ [r.input] ∧
    (h.subscribeBuilt r).built = h.built ++ [h.store.length] ∧
    (h.subscribeBuilt r).channels = h.channels ∧
    (h.subscribeBuilt r).log =
      h.log ++ [Event.prepared r.name] ++ r.emits.map Event.activated
        ++ [Event.factoryInvoked h.store.length] := by
  obtain ⟨he, hs⟩ := foldl_activate
    (m := h.manager.prepare_construction r.name)
    (show (h.manager.prepare_construction r.name).scopes =
      Construction.mk r.name [] [] :: h.manager.scopes from rfl)
  refine ⟨he, ?_, rfl, rfl, rfl, by simp [Hub.subscribeBuilt, Hub.subscribePrepared]⟩
  show (r.emits.foldl Manager.activate_channel
    (h.manager.prepare_construction r.name)).scopes = _
  rw [hs]
  simp

theorem subscribe_ok {h h' : Hub} {r : Request}
    (hrun : h.subscribe r = (h', none)) :
    h'.manager.edges =
      h.manager.edges ++ proposedEdges r.name r.listens r.emits ∧
    h'.manager.scopes = h.manager.scopes ∧
    h'.store = h.store ++ [r.input] ∧
    h'.built = h.built ++ [h.store.length] ∧
    h'.channels = pushAll h.channels r.listens h.store.length ∧
    h'.log = h.log ++ [Event.prepared r.name] ++ r.emits.map Event.activated
      ++ [Event.factoryInvoked h.store.length]
      ++ r.listens.map (fun c => Event.registered c h.store.length)
      ++ [Event.committed] ∧
    ∀ L ∈ r.listens, ∀ E ∈ r.emits, ¬ Reach h.manager.edges E L := by
  obtain ⟨hbe, hbs, hbst, hbb, hbch, hbl⟩ := subscribeBuilt_spec h r
  unfold Hub.subscribe at hrun
  cases hsel : (h.subscribeBuilt r).selfscribe h.store.length r.listens with
  | mk h3 oe =>
    rw [hsel] at hrun
    cases oe with
    | some e => simp at hrun
    | none =>
      simp only [Prod.mk.injEq] at hrun
      obtain ⟨hh', -⟩ := hrun
      obtain ⟨he3, hs3, hst3, hb3, hch3, hl3, hfp3⟩ := selfscribe_ok hbs hsel
      subst hh'
      have hfin : h3.manager.finish_construction =
          Manager.mk (h3.manager.edges ++ proposedEdges r.name r.listens r.emits)
            h.manager.scopes := by
        unfold Manager.finish_construction
        rw [hs3]
        simp
      refine ⟨?_, ?_, hst3.trans hbst, hb3.trans hbb, ?_, ?_, ?_⟩
      · show (h3.manager.finish_construction).edges = _
        rw [hfin, he3, hbe]
      · show (h3.manager.finish_construction).scopes = _
        rw [hfin]
      · rw [hch3, hbch]
      · show h3.log ++ [Event.committed] = _
        rw [hl3, hbl]
      · intro L hL E hE
        have := hfp3 L hL E (by simpa using hE)
        rw [hbe] at this
        exact not_reach_of_findPath_none this

theorem subscribe_error {h h' : Hub} {r : Request} {e : RError}
    (hrun : h.subscribe r = (h', some e)) :
    (∃ msg, e = .CycleDetected msg) ∧
    h'.manager.edges = h.manager.edges ∧
    h'.store = h.store ++ [r.input] ∧
    h'.built = h.built ++ [h.store.length] ∧
    ∃ pre c post, r.listens = pre ++ c :: post ∧
      h'.channels = pushAll h.channels pre h.store.length ∧
      h'.log = h.log ++ [Event.prepared r.name] ++ r.emits.map Event.activated
        ++ [Event.factoryInvoked h.store.length]
        ++ pre.map (fun c' => Event.registered c' h.store.length) := by
  obtain ⟨hbe, hbs, hbst, hbb, hbch, hbl⟩ := subscribeBuilt_spec h r
  unfold Hub.subscribe at hrun
  cases hsel : (h.subscribeBuilt r).selfscribe h.store.length r.listens with
  | mk h3 oe =>
    rw [hsel] at hrun
    cases oe with
    | none => simp at hrun
    | some e0 =>
      simp only [Prod.mk.injEq, Option.some.injEq] at hrun
      obtain ⟨hh', he0⟩ := hrun
      subst hh'
      subst he0
      obtain ⟨hmsg, he3, hst3, hb3, pre, c, post, hsplit, hch3, hl3⟩ :=
        selfscribe_error hbs hsel
      refine ⟨hmsg, he3.trans hbe, hst3.trans hbst, hb3.trans hbb,
        pre, c, post, hsplit, ?_, ?_⟩
      · rw [hch3, hbch]
      · rw [hl3, hbl]

/-- A subscription whose declared listen-set and emit-set would close a
cycle over the already-committed edges is rejected. -/
theorem subscribe_rejects_cycle {h : Hub} {r : Request}
    (hcyc : ∃ L ∈ r.listens, ∃ E ∈ r.emits, Reach h.manager.edges E L) :
    ((h.subscribe r).2).isSome := by
  cases hres : h.subscribe r with
  | mk h' oe =>
    cases oe with
    | some e => simp
    | none =>
      obtain ⟨L, hL, E, hE, hre⟩ := hcyc
      exact absurd hre ((subscribe_ok hres).2.2.2.2.2.2 L hL E hE)

/-- A rejected subscription commits nothing into the permission graph. -/
theorem subscribe_edges_stable {h : Hub} {r : Request}
    (hrej : ((h.subscribe r).2).isSome) :
    ((h.subscribe r).1).manager.edges = h.manager.edges := by
  cases hres : h.subscribe r with
  | mk h' oe =>
    cases oe with
    | none => rw [hres] at hrej; simp at hrej
    | some e => simpa using (subscribe_error hres).2.1

/-- Every subscription — accepted or rejected — preserves acyclicity of the
committed permission graph. -/
theorem subscribe_preserves_acyclic {h : Hub} {r : Request}
    (hac : Acyclic h.manager.edges) :
    Acyclic ((h.subscribe r).1).manager.edges := by
  cases hres : h.subscribe r with
  | mk h' oe =>
    cases oe with
    | some e =>
      have := (subscribe_error hres).2.1
      simpa [this] using hac
    | none =>
      obtain ⟨he, -, -, -, -, -, hnr⟩ := subscribe_ok hres
      simp only [he]
      exact acyclic_append hac proposedEdges_shape hnr

/-- Acyclicity is an invariant of every sequence of subscription requests. -/
theorem run_preserves_acyclic {reqs : List Request} :
    ∀ {h : Hub}, Acyclic h.manager.edges →
      Acyclic ((h.run reqs).manager.edges) := by
  induction reqs with
  | nil => intro h hac; exact hac
  | cons r rest ih =>
    intro h hac
    exact ih (subscribe_preserves_acyclic hac)

theorem acyclic_nil : Acyclic ([] : List Edge) := by
  intro e he
  cases he

theorem emitList_traced {σ T : Type} (f : σ → T → σ × T) :
    ∀ (l : List T) (acc : List T) (s : σ),
      ((emitList (fun p x => let r := f p.2 x; ((p.1 ++ [x], r.1), r.2))
        (acc, s) l).1).1 = acc ++ l := by
  intro l
  induction l with
  | nil => intro acc s; simp [emitList]
  | cons x xs ih =>
    intro acc s
    show ((emitList _ ((acc ++ [x], (f s x).1)) xs).1).1 = acc ++ x :: xs
    rw [ih (acc ++ [x]) (f s x).1]
    simp

/-- The visit log of any dispatch is exactly the subscriber sequence. -/
theorem emitTrace_eq {σ T : Type} (t : Topic T) (f : σ → T → σ × T) (s : σ) :
    t.emitTrace f s = t.subscribers := by
  show ((emitList _ (([] : List T), s) t.subscribers).1).1 = t.subscribers
  rw [emitList_traced f t.subscribers [] s]
  simp

theorem removeList_pure {T : Type} (p : T → Bool) :
    ∀ (l : List T) (acc : List T),
      (removeList (fun (tr : List T) x => (tr ++ [x], x, p x)) acc l).1 =
        acc ++ l ∧
      (removeList (fun (tr : List T) x => (tr ++ [x], x, p x)) acc l).2 =
        l.filter (fun x => ! p x) := by
  intro l
  induction l with
  | nil => intro acc; simp [removeList]
  | cons x xs ih =>
    intro acc
    obtain ⟨h1, h2⟩ := ih (acc ++ [x])
    constructor
    · show ((removeList _ (acc ++ [x]) xs).1) = acc ++ x :: xs
      rw [h1]; simp
    · show (if p x then (removeList _ (acc ++ [x]) xs).2
          else x :: (removeList _ (acc ++ [x]) xs).2) = _
      rw [h2]
      by_cases hp : p x <;> simp [hp]

theorem removeList_sublist {σ T : Type} (f0 : σ → T → σ × Bool) :
    ∀ (l : List T) (s : σ),
      List.Sublist
        ((removeList (fun s x => ((f0 s x).1, x, (f0 s x).2)) s l).2) l := by
  intro l
  induction l with
  | nil => intro s; simp [removeList]
  | cons x xs ih =>
    intro s
    show List.Sublist
      (if (f0 s x).2 then (removeList _ (f0 s x).1 xs).2
        else x :: (removeList _ (f0 s x).1 xs).2) (x :: xs)
    by_cases hp : (f0 s x).2
    · simp only [hp, if_pos]
      exact List.Sublist.cons x (ih (f0 s x).1)
    · simp only [hp, if_neg, Bool.false_eq_true, not_false_iff]
      exact List.Sublist.cons₂ x (ih (f0 s x).1)

theorem chanGet_pushChannel_same {c : String} {id : Nat} :
    ∀ {chs : List (String × List Nat)}, hasChannel chs c = true →
      chanGet (pushChannel chs c id) c = chanGet chs c ++ [id] := by
  intro chs
  induction chs with
  | nil => intro hmem; simp [hasChannel] at hmem
  | cons p t ih =>
    intro hmem
    obtain ⟨n, l⟩ := p
    by_cases hp : n = c
    · subst hp
      simp [pushChannel, chanGet]
    · have hmem' : hasChannel t c = true := by
        simpa [hasChannel, hp] using hmem
      have hrec := ih hmem'
      simpa [pushChannel, chanGet, hp] using hrec

theorem chanGet_pushChannel_other {c c' : String} {id : Nat} (hne : c' ≠ c) :
    ∀ {chs : List (String × List Nat)},
      chanGet (pushChannel chs c' id) c = chanGet chs c := by
  intro chs
  induction chs with
  | nil => rfl
  | cons p t ih =>
    obtain ⟨n, l⟩ := p
    by_cases hp : n = c'
    · subst hp
      simpa [pushChannel, chanGet, hne, Ne.symm hne] using ih
    · by_cases hpc : n = c
      · subst hpc
        simp [pushChannel, chanGet, hp]
      · simpa [pushChannel, chanGet, hp, hpc] using ih

theorem hasChannel_pushChannel {c c' : String} {id : Nat} :
    ∀ {chs : List (String × List Nat)},
      hasChannel (pushChannel chs c' id) c = hasChannel chs c := by
  intro chs
  induction chs with
  | nil => rfl
  | cons p t ih =>
    obtain ⟨n, l⟩ := p
    by_cases hp : n = c' <;>
      simp [pushChannel, hasChannel, hp] at ih ⊢ <;> rw [ih]

theorem chanGet_pushAll_not_mem {id : Nat} :
    ∀ {ls : List String} {chs : List (String × List Nat)} {c : String},
      c ∉ ls → chanGet (pushAll chs ls id) c = chanGet chs c := by
  intro ls
  induction ls with
  | nil => intro chs c _; rfl
  | cons c0 rest ih =>
    intro chs c hc
    have hne : c0 ≠ c := fun h => hc (h ▸ List.mem_cons_self c0 rest)
    show chanGet (pushAll (pushChannel chs c0 id) rest id) c = chanGet chs c
    rw [ih (fun h => hc (List.mem_cons_of_mem c0 h))]
    exact chanGet_pushChannel_other hne

theorem chanGet_pushAll_mem {id : Nat} :
    ∀ {ls : List String} {chs : List (String × List Nat)} {c : String},
      ls.Nodup → c ∈ ls → hasChannel chs c = true →
      chanGet (pushAll chs ls id) c = chanGet chs c ++ [id] := by
  intro ls
  induction ls with
  | nil => intro chs c _ hc _; cases hc
  | cons c0 rest ih =>
    intro chs c hnd hc hpres
    obtain ⟨hnotin, hnd'⟩ := List.nodup_cons.mp hnd
    show chanGet (pushAll (pushChannel chs c0 id) rest id) c = _
    rcases List.mem_cons.mp hc with hc | hc
    · subst hc
      rw [chanGet_pushAll_not_mem hnotin]
      exact chanGet_pushChannel_same hpres
    · have hne : c0 ≠ c := fun h => hnotin (h ▸ hc)
      rw [ih hnd' hc (by rw [hasChannel_pushChannel]; exact hpres)]
      rw [chanGet_pushChannel_other hne]

theorem emitList_length {σ T : Type} (f : σ → T → σ × T) :
    ∀ (l : List T) (s : σ), ((emitList f s l).2).length = l.length := by
  intro l
  induction l with
  | nil => intro s; rfl
  | cons x xs ih =>
    intro s
    show ((f s x).2 :: (emitList f (f s x).1 xs).2).length = xs.length + 1
    rw [List.length_cons, ih (f s x).1]

/-- C1, counterexample: on the hub with channels `a`, `x`, the request
`W` listening on `[x, a]` with emit grant `a` is rejected (self-loop on
`a`), yet channel `x` — processed before the failing check — retains the new
registration, so membership is not what it was before the request. -/
theorem rejection_membership_not_restored : ¬ SubscriptionAtomicityClaim := by
  intro hclaim
  have h3 := (hclaim ["a", "x"] [] ⟨"W", ["x", "a"], ["a"], 0⟩).2.2
  have hsome : ((((Hub.new ["a", "x"]).run []).subscribe
      ⟨"W", ["x", "a"], ["a"], 0⟩).2).isSome := by decide
  exact absurd ((h3 hsome).2 "x") (by decide)

/-- C1, amended: for every request sequence the committed graph is acyclic;
a subscription whose listen-set/emit-set would close a cycle over the
committed edges is rejected; and a rejection leaves the committed edge set
unchanged.  (Unlike the original claim, channel membership is not fully
restored: listen channels registered before the failing check keep the new
entry.) -/
theorem subscription_acyclicity_amended :
    (∀ (names : List String) (reqs : List Request),
      Acyclic (((Hub.new names).run reqs).manager.edges)) ∧
    (∀ (h : Hub) (r : Request),
      (∃ L ∈ r.listens, ∃ E ∈ r.emits, Reach h.manager.edges E L) →
      ((h.subscribe r).2).isSome) ∧
    (∀ (h : Hub) (r : Request), ((h.subscribe r).2).isSome →
      ((h.subscribe r).1).manager.edges = h.manager.edges) := by
  refine ⟨?_, ?_, ?_⟩
  · intro names reqs
    exact run_preserves_acyclic acyclic_nil
  · intro h r hcyc
    exact subscribe_rejects_cycle hcyc
  · intro h r hrej
    exact subscribe_edges_stable hrej

/-- C1, witness: the amended theorem applied to the concrete self-loop
request on a fresh one-channel hub. -/
theorem subscription_acyclicity_amended_witness :
    ((((Hub.new ["a"]).subscribe ⟨"X", ["a"], ["a"], 0⟩).2).isSome) ∧
    (((Hub.new ["a"]).subscribe ⟨"X", ["a"], ["a"], 0⟩).1).manager.edges =
      (Hub.new ["a"]).manager.edges := by
  have h1 := subscription_acyclicity_amended.2.1 (Hub.new ["a"])
    ⟨"X", ["a"], ["a"], 0⟩ ⟨"a", by decide, "a", by decide, Reach.rfl "a"⟩
  exact ⟨h1, subscription_acyclicity_amended.2.2 (Hub.new ["a"])
    ⟨"X", ["a"], ["a"], 0⟩ h1⟩

/-- C2, counterexample: the self-loop request `X` on a fresh hub is rejected
with a cycle error, yet the factory has already produced an instance
(`built` grew from `[]` to `[0]`). -/
theorem rejected_subscription_builds_instance : ¬ RejectionNoSideEffectClaim := by
  intro hclaim
  have h := hclaim (Hub.new ["a"]) ⟨"X", ["a"], ["a"], 0⟩
    (((Hub.new ["a"]).subscribe ⟨"X", ["a"], ["a"], 0⟩).1) "[X]a -> a" rfl
  exact absurd h.1 (by decide)

/-- C2, amended: a rejected subscription is always a cycle rejection and
commits no graph edge; however the handler factory has already run (exactly
one new instance was built), and the listen channels that precede the
failing channel in the declared listen order retain the new registration. -/
theorem rejected_subscription_effects :
    ∀ (h : Hub) (r : Request) (h' : Hub) (e : RError),
      h.subscribe r = (h', some e) →
      (∃ msg, e = .CycleDetected msg) ∧
      h'.manager.edges = h.manager.edges ∧
      h'.built = h.built ++ [h.store.length] ∧
      ∃ pre c post, r.listens = pre ++ c :: post ∧
        h'.channels = pushAll h.channels pre h.store.length := by
  intro h r h' e hrun
  obtain ⟨hmsg, he, _, hb, pre, c, post, hsplit, hch, _⟩ := subscribe_error hrun
  exact ⟨hmsg, he, hb, pre, c, post, hsplit, hch⟩

/-- C2, witness: the amended theorem applied to the request `W` listening on
`[x, a]` with emit grant `a` against the fresh hub with channels `a`, `x`. -/
theorem rejected_subscription_effects_witness :
    (∃ msg, RError.CycleDetected "[W]a -> a" = RError.CycleDetected msg) ∧
    (((Hub.new ["a", "x"]).subscribe ⟨"W", ["x", "a"], ["a"], 5⟩).1).manager.edges =
      (Hub.new ["a", "x"]).manager.edges ∧
    (((Hub.new ["a", "x"]).subscribe ⟨"W", ["x", "a"], ["a"], 5⟩).1).built =
      (Hub.new ["a", "x"]).built ++ [(Hub.new ["a", "x"]).store.length] ∧
    ∃ pre c post, (["x", "a"] : List String) = pre ++ c :: post ∧
      (((Hub.new ["a", "x"]).subscribe ⟨"W", ["x", "a"], ["a"], 5⟩).1).channels =
        pushAll (Hub.new ["a", "x"]).channels pre (Hub.new ["a", "x"]).store.length :=
  rejected_subscription_effects (Hub.new ["a", "x"]) ⟨"W", ["x", "a"], ["a"], 5⟩
    (((Hub.new ["a", "x"]).subscribe ⟨"W", ["x", "a"], ["a"], 5⟩).1)
    (RError.CycleDetected "[W]a -> a") rfl

/-- C3, counterexample: subscribing `X` (listen `a`, emit `b`) after `Y`
(listen `b`, emit `a`) does NOT produce the claimed text
`[X]a -> [Y]b -> a`. -/
theorem cycle_text_not_new_subscriber_first :
    ¬ hubXafterY.2 = some (RError.CycleDetected "[X]a -> [Y]b -> a") := by
  decide

/-- C3, amended: the diagnostic does not start at the new subscriber — it
starts with the hops of the pre-existing committed path from the new
subscriber's emit-grant channel back to its listen channel (each labelled
with the prior subscriber owning the hop), then the new subscriber's own hop
`[name]listenChannel`, terminated by repeating the emit channel that closes
the loop.  Subscribing `X` after `Y` therefore fails with exactly
`[Y]b -> [X]a -> b`, while the text `[X]a -> [Y]b -> a` is produced in the
opposite order — `X` first, `Y`'s subscription rejected — as in the
`hub_dual_recursion` test. -/
theorem cycle_text_order :
    hubXafterY.2 = some (RError.CycleDetected "[Y]b -> [X]a -> b") ∧
    hubYafterX.2 = some (RError.CycleDetected "[X]a -> [Y]b -> a") :=
  ⟨rfl, rfl⟩

/-- C4: a handler whose listen-set and emit-set share a channel (a
self-loop) is always rejected, and on a fresh hub the diagnostic collapses
to the claimed two-hop text `[X]a -> a`. -/
theorem self_loop_rejected :
    (∀ (h : Hub) (r : Request) (c : String),
      c ∈ r.listens → c ∈ r.emits → ((h.subscribe r).2).isSome) ∧
    ((Hub.new ["a"]).subscribe ⟨"X", ["a"], ["a"], 0⟩).2 =
      some (RError.CycleDetected "[X]a -> a") := by
  refine ⟨?_, rfl⟩
  intro h r c hl he
  exact subscribe_rejects_cycle ⟨c, hl, c, he, Reach.rfl c⟩

/-- C4, witness: the self-loop rejection applied to a concrete request. -/
theorem self_loop_rejected_witness :
    (((Hub.new ["b"]).subscribe ⟨"Z", ["b"], ["b"], 1⟩).2).isSome :=
  self_loop_rejected.1 (Hub.new ["b"]) ⟨"Z", ["b"], ["b"], 1⟩ "b"
    (by decide) (by decide)

/-- C5: a single `emit` applies the visitor exactly once to every currently
registered subscriber, in the channel's current sequence order — the visit
log of the instrumented dispatch is exactly the subscriber sequence — and
the dispatch touches every subscriber (the sequence keeps its length). -/
theorem emit_dispatch_complete :
    ∀ (T σ : Type) (t : Topic T) (f : σ → T → σ × T) (s : σ),
      t.emitTrace f s = t.subscribers ∧
      (((t.emit f s).2).subscribers).length = t.subscribers.length := by
  intro T σ t f s
  exact ⟨emitTrace_eq t f s, emitList_length f t.subscribers s⟩

/-- C6, counterexample: in the concrete successful subscription of `X`
listening on `a`, the commit event does not precede the factory event —
the factory runs first and the commit is the last step. -/
theorem commit_not_before_factory : ¬ CommitBeforeFactoryClaim := by
  intro hclaim
  have h := hclaim (Hub.new ["a"]) ⟨"X", ["a"], [], 0⟩
    (((Hub.new ["a"]).subscribe ⟨"X", ["a"], [], 0⟩).1) rfl
  exact absurd h (by decide)

/-- C6, amended: the successful protocol's actual order is
`prepare_construction`, the per-emit-channel activations, the factory
(`T::build`), the per-listen-channel registrations in declared order, and
the edge commit LAST; the committed edges are the listen×emit pairs, and
`subscribe` returns no subscription handle (its result carries only the hub
state and the absence of an error). -/
theorem subscription_protocol_order :
    ∀ (h : Hub) (r : Request) (h' : Hub), h.subscribe r = (h', none) →
      h'.log = h.log ++ [Event.prepared r.name] ++ r.emits.map Event.activated
        ++ [Event.factoryInvoked h.store.length]
        ++ r.listens.map (fun c => Event.registered c h.store.length)
        ++ [Event.committed] ∧
      h'.manager.edges =
        h.manager.edges ++ proposedEdges r.name r.listens r.emits := by
  intro h r h' hrun
  obtain ⟨he, -, -, -, -, hl, -⟩ := subscribe_ok hrun
  exact ⟨hl, he⟩

/-- C6, witness: the amended protocol order applied to the concrete
successful subscription of `X` listening on `a` with no emit grants. -/
theorem subscription_protocol_order_witness :
    (((Hub.new ["a"]).subscribe ⟨"X", ["a"], [], 0⟩).1).log =
      (Hub.new ["a"]).log ++ [Event.prepared "X"]
        ++ ([] : List String).map Event.activated
        ++ [Event.factoryInvoked (Hub.new ["a"]).store.length]
        ++ (["a"] : List String).map
            (fun c => Event.registered c (Hub.new ["a"]).store.length)
        ++ [Event.committed] ∧
    (((Hub.new ["a"]).subscribe ⟨"X", ["a"], [], 0⟩).1).manager.edges =
      (Hub.new ["a"]).manager.edges ++ proposedEdges "X" ["a"] [] :=
  subscription_protocol_order (Hub.new ["a"]) ⟨"X", ["a"], [], 0⟩
    (((Hub.new ["a"]).subscribe ⟨"X", ["a"], [], 0⟩).1) rfl

/-- C7: `remove` applies the predicate to each registered subscriber in turn
(the application log is exactly the subscriber sequence) and removes exactly
the subscribers for which the predicate returns `true`: the survivors are
exactly the subscribers on which it returned `false`. -/
theorem remove_filters_by_predicate :
    ∀ (T : Type) (t : Topic T) (p : T → Bool),
      ((t.remove (fun (tr : List T) x => (tr ++ [x], x, p x)) []).1 =
        t.subscribers) ∧
      (((t.remove (fun (tr : List T) x => (tr ++ [x], x, p x)) []).2).subscribers =
        t.subscribers.filter (fun x => ! p x)) := by
  intro T t p
  obtain ⟨h1, h2⟩ := removeList_pure p t.subscribers []
  exact ⟨by simpa using h1, h2⟩

/-- C8: once `unregister h` succeeds, no dispatch on the channel visits the
instance identified by `h` any more, and a second `unregister` of the same
handle — like any `unregister` of a handle not currently present — fails
with UnknownSubscription. -/
theorem unregister_correct :
    (∀ (u : Topic Nat) (x : Nat), x ∉ u.subscribers →
      u.unregister x = .error .UnknownSubscription) ∧
    (∀ (t t' : Topic Nat) (hdl : Nat),
      t.subscribers.count hdl ≤ 1 → t.unregister hdl = .ok t' →
      (∀ (σ : Type) (f : σ → Nat → σ × Nat) (s : σ), hdl ∉ t'.emitTrace f s) ∧
      t'.unregister hdl = .error .UnknownSubscription) := by
  constructor
  · intro u x hx
    simp [Topic.unregister, hx]
  · intro t t' hdl hcount hok
    unfold Topic.unregister at hok
    by_cases hmem : hdl ∈ t.subscribers
    · rw [if_pos hmem] at hok
      simp only [Except.ok.injEq] at hok
      subst hok
      have hone : t.subscribers.count hdl = 1 := by
        have := List.count_pos_iff.mpr hmem
        omega
      have hzero : (t.subscribers.erase hdl).count hdl = 0 := by
        rw [List.count_erase_self, hone]
      have hnotin : hdl ∉ t.subscribers.erase hdl :=
        List.count_eq_zero.mp hzero
      constructor
      · intro σ f s
        rw [emitTrace_eq]
        exact hnotin
      · simp [Topic.unregister, hnotin]
    · rw [if_neg hmem] at hok
      cases hok

/-- C8, witness: a one-subscriber channel, its only handle unregistered. -/
theorem unregister_correct_witness :
    (7 ∉ (Topic.mk Manager.default "a" ([] : List Nat)).emitTrace
      (fun (s : Unit) x => (s, x)) ()) ∧
    (Topic.mk Manager.default "a" ([] : List Nat)).unregister 7 =
      .error .UnknownSubscription := by
  have h := (unregister_correct.2 (Topic.mk Manager.default "a" [7])
    (Topic.mk Manager.default "a" []) 7 (by decide) (by simp [Topic.unregister]))
  exact ⟨h.1 Unit (fun s x => (s, x)) (), h.2⟩

/-- C9: the subscribers surviving a `remove` keep their previous relative
order — the surviving sequence is a sublist of the original, so a later
`emit` visits them in the same relative order as before. -/
theorem remove_preserves_order :
    ∀ (T σ : Type) (t : Topic T) (f0 : σ → T → σ × Bool) (s : σ),
      List.Sublist
        (((t.remove (fun s x => ((f0 s x).1, x, (f0 s x).2)) s).2).subscribers)
        t.subscribers := by
  intro T σ t f0 s
  exact removeList_sublist f0 t.subscribers s

/-- C10: a single subscription registers the SAME fresh shared cell (the
id `h.store.length`) into every declared listen channel — not independent
copies — and consequently a mutation applied through a dispatch on one
listened channel is observed by a later dispatch on another listened
channel of the same subscription. -/
theorem shared_cell_across_channels :
    (∀ (h : Hub) (r : Request) (h' : Hub), h.subscribe r = (h', none) →
      r.listens.Nodup → (∀ c ∈ r.listens, hasChannel h.channels c = true) →
      ∀ c ∈ r.listens, h'.getChannel c = h.getChannel c ++ [h.store.length]) ∧
    (((((Hub.new ["a", "b"]).subscribe ⟨"W", ["a", "b"], [], 0⟩).1).emitOn "a"
        (fun v => v + 1)).emitValues "b" = [1]) := by
  refine ⟨?_, rfl⟩
  intro h r h' hrun hnd hpres c hc
  obtain ⟨-, -, -, -, hch, -, -⟩ := subscribe_ok hrun
  show chanGet h'.channels c = chanGet h.channels c ++ [h.store.length]
  rw [hch]
  exact chanGet_pushAll_mem hnd hc (hpres c hc)

/-- C10, witness: the shared-cell theorem applied to the concrete
subscription of `W` listening on both `a` and `b`. -/
theorem shared_cell_across_channels_witness :
    (((Hub.new ["a", "b"]).subscribe ⟨"W", ["a", "b"], [], 0⟩).1).getChannel "a" =
      (Hub.new ["a", "b"]).getChannel "a" ++ [(Hub.new ["a", "b"]).store.length] ∧
    (((Hub.new ["a", "b"]).subscribe ⟨"W", ["a", "b"], [], 0⟩).1).getChannel "b" =
      (Hub.new ["a", "b"]).getChannel "b" ++ [(Hub.new ["a", "b"]).store.length] := by
  have h := shared_cell_across_channels.1 (Hub.new ["a", "b"])
    ⟨"W", ["a", "b"], [], 0⟩
    (((Hub.new ["a", "b"]).subscribe ⟨"W", ["a", "b"], [], 0⟩).1) rfl
    (by decide) (by decide)
  exact ⟨h "a" (by decide), h "b" (by decide)⟩

end Revent
